import Mathlib

/-!
Verification of the number-partitioning QAOA/VQE core.

The definitions below are a shallow embedding of the Python code of the
repository (the QAOA notebook and `Number_partition_VQE.ipynb`).  Python
floats are modelled as exact rationals, complex statevector amplitudes as
pairs of rationals (real and imaginary part), measured bits as `Bool`
(`false` = 0, `true` = 1), and the Python `dict` used by the decoder as an
insertion-ordered association list.
-/

namespace NumberPartition

/-! ## Definitions: the shallow embedding of the source -/

/-- Spin value of a measured bit, following the source convention
`1 if bit == 0 else -1` (bit 0 maps to spin +1, bit 1 to spin -1). -/
def bitSpin (b : Bool) : ℤ := if b then -1 else 1

/-- Embedding of `bitstring_to_partition`: map every measured bit to a
spin via the 0 to +1, 1 to -1 convention. -/
def bitstring_to_partition (bits : List Bool) : List ℤ :=
  bits.map bitSpin

/-- Embedding of the imbalance `S = sum(a * spin for a, spin in
zip(numbers, spin_assignment))` computed inside `compute_cost`. -/
def imbalance (numbers : List ℚ) (spins : List ℤ) : ℚ :=
  ((numbers.zip spins).map (fun x => x.1 * (x.2 : ℚ))).sum

/-- Embedding of `compute_cost`: the cost of a spin assignment is
`S * S` where `S` is the imbalance. -/
def compute_cost (numbers : List ℚ) (spins : List ℤ) : ℚ :=
  imbalance numbers spins * imbalance numbers spins

/-- Embedding of `constant_term = sum(a*a for a in numbers)`. -/
def constant_term (numbers : List ℚ) : ℚ :=
  (numbers.map (fun a => a * a)).sum

/-- Index pairs `(i, j)` produced by the nested loops
`for i in range(n): for j in range(i+1, n)` of the source, in loop order. -/
def indexPairs (n : ℕ) : List (ℕ × ℕ) :=
  (List.range n).flatMap (fun i => (List.range' (i + 1) (n - (i + 1))).map (fun j => (i, j)))

/-- Embedding of the `cost_terms` loop: one entry `(i, j, 2 * a_i * a_j)`
per index pair `i < j`, in loop order. -/
def cost_terms (numbers : List ℚ) : List (ℕ × ℕ × ℚ) :=
  (indexPairs numbers.length).map
    (fun p => (p.1, p.2, 2 * numbers.getD p.1 0 * numbers.getD p.2 0))

/-- Per-shot signed weighted sum, embedding
`sum(numbers[i]*(-1)**b for i, b in enumerate(bs))`. -/
def shotSignedSum (numbers : List ℚ) (bs : List Bool) : ℚ :=
  (bs.enum.map (fun ib => numbers.getD ib.1 0 * (-1 : ℚ) ^ (cond ib.2 1 0))).sum

/-- Embedding of `energy_from_measurements`: the mean over all measured
bitstrings of the squared signed weighted sum. -/
def energy_from_measurements (numbers : List ℚ) (measurements : List (List Bool)) : ℚ :=
  ((measurements.map (fun bs => shotSignedSum numbers bs ^ 2)).sum) / measurements.length

/-- Embedding of `objective`: resolve the parameters, sample the circuit
through the oracle, and return `energy_from_measurements` of the samples.
The stochastic oracle is abstracted as the sample batch it returns. -/
def objective (numbers : List ℚ) (sample : List (List Bool)) : ℚ :=
  energy_from_measurements numbers sample

/-- Sampled-mode estimate as the spec words it (section 4.4): per shot,
`S = Σ_i a_i · (+1 if bit_i = 0 else -1)`; per-shot cost `S²`; estimate is
the arithmetic mean over the batch. -/
def specSampledEnergy (numbers : List ℚ) (batch : List (List Bool)) : ℚ :=
  ((batch.map (fun bs =>
      ((bs.enum.map (fun ib =>
        numbers.getD ib.1 0 * (if ib.2 then -1 else 1))).sum) ^ 2)).sum)
    / batch.length

/-- One step of the decoder aggregation loop over the sample batch:
convert the bitstring to a partition, then either increment the count of
its existing entry or append a fresh entry holding the partition, its cost
and count 1.  This mirrors the Python dict with insertion order. -/
def addShot (numbers : List ℚ) (acc : List (List ℤ × ℚ × ℕ)) (bits : List Bool) :
    List (List ℤ × ℚ × ℕ) :=
  let p := bitstring_to_partition bits
  if (acc.find? (fun e => e.1 == p)).isSome then
    acc.map (fun e => if e.1 == p then (e.1, e.2.1, e.2.2 + 1) else e)
  else
    acc ++ [(p, compute_cost numbers p, 1)]

/-- Embedding of the `partition_costs` aggregation loop over all shots. -/
def partition_costs (numbers : List ℚ) (batch : List (List Bool)) :
    List (List ℤ × ℚ × ℕ) :=
  batch.foldl (addShot numbers) []

/-- Keys (distinct observed partitions) of the aggregation structure. -/
def statKeys (stats : List (List ℤ × ℚ × ℕ)) : List (List ℤ) :=
  stats.map (fun e => e.1)

/-- Total of all stored observation counts. -/
def totalCount (stats : List (List ℤ × ℚ × ℕ)) : ℕ :=
  (stats.map (fun e => e.2.2)).sum

/-- Stored observation count of one partition (0 when absent). -/
def storedCount (stats : List (List ℤ × ℚ × ℕ)) (p : List ℤ) : ℕ :=
  match stats.find? (fun e => e.1 == p) with
  | some e => e.2.2
  | none => 0

/-- Embedding of the minimum of the stored costs over all dict values
as a left fold of the binary minimum, matching Python `min` on a
non-empty iterable (0 on the empty one, which Python would reject). -/
def min_cost (stats : List (List ℤ × ℚ × ℕ)) : ℚ :=
  match stats.map (fun e => e.2.1) with
  | [] => 0
  | c :: cs => cs.foldl min c

/-- Embedding of the `optimal_partitions` comprehension: all stored
partitions whose stored cost equals the minimum. -/
def optimal_partitions (stats : List (List ℤ × ℚ × ℕ)) : List (List ℤ) :=
  (stats.filter (fun e => e.2.1 == min_cost stats)).map (fun e => e.1)

/-- Embedding of `sub_a = [numbers[i] for i in range(n_qubits) if partition[i] == 1]`. -/
def subsetA (numbers : List ℚ) (p : List ℤ) : List ℚ :=
  ((List.range numbers.length).filter (fun i => p.getD i 0 == 1)).map
    (fun i => numbers.getD i 0)

/-- Embedding of `sub_b = [numbers[i] for i in range(n_qubits) if partition[i] == -1]`. -/
def subsetB (numbers : List ℚ) (p : List ℤ) : List ℚ :=
  ((List.range numbers.length).filter (fun i => p.getD i 0 == -1)).map
    (fun i => numbers.getD i 0)

/-- Embedding of the `table_data` rows: partition, first subset, second
subset, signed sum difference, and stored frequency (a dict lookup). -/
def table_data (numbers : List ℚ) (stats : List (List ℤ × ℚ × ℕ)) :
    List (List ℤ × List ℚ × List ℚ × ℚ × ℕ) :=
  (optimal_partitions stats).map (fun p =>
    (p, subsetA numbers p, subsetB numbers p,
      (subsetA numbers p).sum - (subsetB numbers p).sum,
      storedCount stats p))

/-- Gate applications appearing in the ansatz circuit.  The argument of
`zz` is the raw parameter; the source divides it by pi to obtain the
`ZZPowGate` exponent, a fixed rescaling irrelevant to circuit structure. -/
inductive Gate where
  | h (i : ℕ)
  | rx (theta : ℚ) (i : ℕ)
  | zz (theta : ℚ) (i : ℕ) (j : ℕ)
  deriving DecidableEq

/-- Parameters per ansatz layer: `n_qubits + n_qubits*(n_qubits-1)//2`. -/
def layer_size (n : ℕ) : ℕ := n + n * (n - 1) / 2

/-- Single-qubit rotation block of one layer: one `rx(params[param_idx])`
per qubit, advancing the index each time.  Indexing past the end of
`params` is a Python IndexError, modelled as `none`. -/
def rxBlock (params : List ℚ) : List ℕ → ℕ → Option (List Gate × ℕ)
  | [], idx => some ([], idx)
  | i :: rest, idx =>
      match params[idx]? with
      | none => none
      | some theta =>
          match rxBlock params rest (idx + 1) with
          | none => none
          | some (gs, idx') => some (Gate.rx theta i :: gs, idx')

/-- Entangling block of one layer, with the in-loop bounds guard
`if param_idx < len(params)` of the source: a pair whose parameter would
be out of range is silently skipped without advancing the index. -/
def zzBlock (params : List ℚ) : List (ℕ × ℕ) → ℕ → List Gate × ℕ
  | [], idx => ([], idx)
  | (i, j) :: rest, idx =>
      if idx < params.length then
        let res := zzBlock params rest (idx + 1)
        (Gate.zz (params.getD idx 0) i j :: res.1, res.2)
      else zzBlock params rest idx

/-- The layer loop `for _ in range(n_layers)` of `create_ansatz`. -/
def layersLoop (params : List ℚ) (n : ℕ) : ℕ → ℕ → Option (List Gate × ℕ)
  | 0, idx => some ([], idx)
  | L + 1, idx =>
      match rxBlock params (List.range n) idx with
      | none => none
      | some (g1, idx1) =>
          match layersLoop params n L (zzBlock params (indexPairs n) idx1).2 with
          | none => none
          | some (gs, idxF) =>
              some (g1 ++ (zzBlock params (indexPairs n) idx1).1 ++ gs, idxF)

/-- Embedding of `create_ansatz`: a Hadamard on every qubit, followed by
`len(params) // layer_size` layers of rotation blocks. -/
def create_ansatz (params : List ℚ) (n : ℕ) : Option (List Gate) :=
  match layersLoop params n (params.length / layer_size n) 0 with
  | none => none
  | some (gs, _) => some ((List.range n).map Gate.h ++ gs)

/-- Squared modulus of a complex amplitude given as (real, imaginary). -/
def normSq (c : ℚ × ℚ) : ℚ := c.1 * c.1 + c.2 * c.2

/-- Z eigenvalue of one qubit in a computational basis state: basis bit 0
has eigenvalue +1, bit 1 has eigenvalue -1. -/
def spinQ (b : Bool) : ℚ := if b then -1 else 1

/-- Expectation of the diagonal parity observable Z_i Z_j on a
statevector, embedding
`zz_op.expectation_from_state_vector(state_vector, qubit_map).real`:
the probability of every basis state times the product of the two Z
eigenvalues there. -/
def zzExpectation {n : ℕ} (psi : (Fin n → Bool) → ℚ × ℚ) (i j : Fin n) : ℚ :=
  ∑ b : Fin n → Bool, normSq (psi b) * (spinQ (b i) * spinQ (b j))

/-- Embedding of `expectation_value`: the constant term plus, for every
index pair `i < j`, the weight `2 * a_i * a_j` times the Z_i Z_j
expectation on the exact state returned by the oracle. -/
def expectation_value (numbers : List ℚ)
    (psi : (Fin numbers.length → Bool) → ℚ × ℚ) : ℚ :=
  constant_term numbers +
    ∑ p : Fin numbers.length × Fin numbers.length,
      if p.1 < p.2 then
        2 * numbers.getD (p.1 : ℕ) 0 * numbers.getD (p.2 : ℕ) 0
          * zzExpectation psi p.1 p.2
      else 0

/-- Direct enumeration of the Hamiltonian expectation over the uniform
distribution of all 2^n bitstrings, modelled from the spec wording:
average of the partition cost `(Σ_i a_i s_i)²` over all basis states. -/
def bruteForceUniformEnergy (numbers : List ℚ) : ℚ :=
  (∑ b : Fin numbers.length → Bool,
      (∑ i : Fin numbers.length, numbers.getD (i : ℕ) 0 * spinQ (b i)) ^ 2)
    / 2 ^ numbers.length

/-! ## Theorems -/

theorem mem_indexPairs {n i j : ℕ} :
    (i, j) ∈ indexPairs n ↔ i < j ∧ j < n := by
  unfold indexPairs
  simp only [List.mem_flatMap, List.mem_map, List.mem_range, List.mem_range']
  constructor
  · rintro ⟨i', hi', j', hj', hpair⟩
    obtain ⟨k, hk, rfl⟩ := hj'
    obtain ⟨rfl, rfl⟩ := Prod.mk.injEq .. ▸ hpair
    omega
  · rintro ⟨hij, hjn⟩
    exact ⟨i, by omega, j, ⟨j - (i + 1), by omega⟩, rfl⟩

theorem sum_listRange_eq {M : Type*} [AddCommMonoid M] (f : ℕ → M) (n : ℕ) :
    ((List.range n).map f).sum = ∑ i ∈ Finset.range n, f i := by
  induction n with
  | zero => simp
  | succ n ih => rw [List.range_succ, Finset.sum_range_succ, List.map_append, List.sum_append, ih]; simp

theorem indexPairs_length (n : ℕ) :
    (indexPairs n).length = n * (n - 1) / 2 := by
  unfold indexPairs
  rw [List.length_flatMap]
  have h1 : (List.map (List.length ∘ fun i =>
      (List.range' (i + 1) (n - (i + 1))).map (fun j => (i, j))) (List.range n)).sum
      = ((List.range n).map (fun i => n - (i + 1))).sum := by
    congr 1
    apply List.map_congr_left
    intro i _
    simp [List.length_range']
  rw [h1, sum_listRange_eq (fun i => n - (i + 1)) n]
  have h2 : ∀ i ∈ Finset.range n, n - (i + 1) = n - 1 - i := by
    intro i _; omega
  rw [Finset.sum_congr rfl h2, Finset.sum_range_reflect (fun i => i) n,
    Finset.sum_range_id]

theorem indexPairs_nodup (n : ℕ) : (indexPairs n).Nodup := by
  unfold indexPairs
  refine List.nodup_flatMap.mpr ⟨?_, ?_⟩
  · intro i _
    refine List.Nodup.map ?_ (List.nodup_range' _ _)
    intro a b h
    simpa using h
  · have h := List.pairwise_lt_range n
    refine h.imp ?_
    intro i j hij
    simp only [Function.onFun]
    intro x hxi hxj
    simp only [List.mem_map] at hxi hxj
    obtain ⟨a, _, rfl⟩ := hxi
    obtain ⟨b, _, hb⟩ := hxj
    have hji : j = i := congrArg Prod.fst hb
    omega

/-- Auxiliary bridge: the sum of an elementwise image of a list equals the
sum over positions of the image of the element at that position. -/
theorem sum_map_eq_sum_range (l : List ℚ) (f : ℚ → ℚ) :
    (l.map f).sum = ∑ i ∈ Finset.range l.length, f (l.getD i 0) := by
  induction l with
  | nil => simp
  | cons a l ih =>
      rw [List.map_cons, List.sum_cons, ih, List.length_cons, Finset.sum_range_succ']
      simp [List.getD]
      exact add_comm _ _

/-- C1.  The Problem Encoder: the constant term is the sum of the squares
of the inputs, and the pairwise terms are exactly one term per unordered
index pair `(i, j)` with `i < j`, with weight `2 * a_i * a_j`; there are
`n * (n-1) / 2` such terms and no duplicates. -/
theorem encoder_spec (numbers : List ℚ) :
    constant_term numbers
      = ∑ i ∈ Finset.range numbers.length, (numbers.getD i 0) * (numbers.getD i 0) ∧
    (cost_terms numbers).length = numbers.length * (numbers.length - 1) / 2 ∧
    (∀ t : ℕ × ℕ × ℚ, t ∈ cost_terms numbers ↔
      t.1 < t.2.1 ∧ t.2.1 < numbers.length ∧
        t.2.2 = 2 * numbers.getD t.1 0 * numbers.getD t.2.1 0) ∧
    (cost_terms numbers).Nodup := by
  refine ⟨?_, ?_, ?_, ?_⟩
  · exact sum_map_eq_sum_range numbers (fun a => a * a)
  · rw [cost_terms, List.length_map, indexPairs_length]
  · rintro ⟨i, j, w⟩
    simp only [cost_terms, List.mem_map]
    constructor
    · rintro ⟨⟨i', j'⟩, hp, heq⟩
      simp only [Prod.mk.injEq] at heq
      obtain ⟨rfl, rfl, rfl⟩ := heq
      exact ⟨(mem_indexPairs.mp hp).1, (mem_indexPairs.mp hp).2, rfl⟩
    · rintro ⟨hij, hj, rfl⟩
      exact ⟨(i, j), mem_indexPairs.mpr ⟨hij, hj⟩, rfl⟩
  · refine List.Nodup.map ?_ (indexPairs_nodup numbers.length)
    rintro ⟨i, j⟩ ⟨i', j'⟩ h
    simp only [Prod.mk.injEq] at h
    simp [h.1, h.2.1]

theorem imbalance_neg (numbers : List ℚ) (spins : List ℤ) :
    imbalance numbers (spins.map (fun s => -s)) = -imbalance numbers spins := by
  unfold imbalance
  rw [List.zip_map_right, List.map_map]
  have hcomp : ((fun x : ℚ × ℤ => x.1 * (x.2 : ℚ)) ∘ Prod.map id (fun s : ℤ => -s))
      = fun x : ℚ × ℤ => -(x.1 * (x.2 : ℚ)) := by
    funext x
    simp [Prod.map]
  rw [hcomp]
  induction numbers.zip spins with
  | nil => simp
  | cons p l ih =>
      simp only [List.map_cons, List.sum_cons, ih]
      ring

/-- C8.  A spin assignment and its global spin-flip have identical cost:
negating every spin negates the imbalance and leaves its square unchanged. -/
theorem compute_cost_spin_flip (numbers : List ℚ) (spins : List ℤ) :
    compute_cost numbers (spins.map (fun s => -s)) = compute_cost numbers spins := by
  unfold compute_cost
  rw [imbalance_neg]
  ring

/-- C5 counterexample.  On the one-element input `[5]` the Problem Encoder
does not fail: it successfully returns a Hamiltonian specification with no
pairwise term and constant term 25 (there is no `n < 2` check anywhere in
the source). -/
theorem encoder_accepts_singleton :
    cost_terms [(5 : ℚ)] = [] ∧ constant_term [(5 : ℚ)] = 25 := by
  constructor
  · rfl
  · norm_num [constant_term]

/-- C5 amended.  For every input with fewer than two elements the encoder
succeeds silently, producing an empty pairwise-term list together with the
constant term; no configuration error is raised. -/
theorem encoder_small_input (numbers : List ℚ) (h : numbers.length < 2) :
    cost_terms numbers = [] ∧
      constant_term numbers = (numbers.map (fun a => a * a)).sum := by
  refine ⟨?_, rfl⟩
  match numbers, h with
  | [], _ => rfl
  | [a], _ => rfl

theorem encoder_small_input_witness :
    ([(5 : ℚ)].length < 2) ∧
      (cost_terms [(5 : ℚ)] = [] ∧
        constant_term [(5 : ℚ)] = ([(5 : ℚ)].map (fun a => a * a)).sum) :=
  ⟨by decide, encoder_small_input [(5 : ℚ)] (by decide)⟩

/-- C2.  The sampled-mode energy estimate equals the arithmetic mean over
shots of the squared signed weighted sum, and the constant term is not
added on top of this mean. -/
theorem sampled_energy_is_mean (numbers : List ℚ) (batch : List (List Bool))
    (h : 0 < batch.length) :
    objective numbers batch = specSampledEnergy numbers batch ∧
    (constant_term numbers ≠ 0 →
      objective numbers batch ≠ specSampledEnergy numbers batch + constant_term numbers) := by
  have hfg : ∀ bs : List Bool,
      (bs.enum.map (fun ib => numbers.getD ib.1 0 * (-1 : ℚ) ^ (cond ib.2 1 0))).sum
        = (bs.enum.map (fun ib => numbers.getD ib.1 0 * (if ib.2 then -1 else 1))).sum := by
    intro bs
    congr 1
    apply List.map_congr_left
    rintro ⟨i, b⟩ _
    cases b <;> norm_num
  have key : objective numbers batch = specSampledEnergy numbers batch := by
    unfold objective energy_from_measurements specSampledEnergy shotSignedSum
    congr 1
    congr 1
    apply List.map_congr_left
    intro bs _
    rw [hfg]
  refine ⟨key, fun hc => ?_⟩
  rw [key]
  intro hbad
  apply hc
  linarith

theorem sampled_energy_is_mean_witness :
    (0 < ([[false]] : List (List Bool)).length) ∧
      (objective [(2 : ℚ)] [[false]] = specSampledEnergy [(2 : ℚ)] [[false]] ∧
        (constant_term [(2 : ℚ)] ≠ 0 →
          objective [(2 : ℚ)] [[false]]
            ≠ specSampledEnergy [(2 : ℚ)] [[false]] + constant_term [(2 : ℚ)])) :=
  ⟨by decide, sampled_energy_is_mean [(2 : ℚ)] [[false]] (by decide)⟩

@[simp] theorem statKeys_nil : statKeys [] = [] := rfl

@[simp] theorem statKeys_cons (e : List ℤ × ℚ × ℕ) (t : List (List ℤ × ℚ × ℕ)) :
    statKeys (e :: t) = e.1 :: statKeys t := rfl

@[simp] theorem totalCount_nil : totalCount [] = 0 := rfl

@[simp] theorem totalCount_cons (e : List ℤ × ℚ × ℕ) (t : List (List ℤ × ℚ × ℕ)) :
    totalCount (e :: t) = e.2.2 + totalCount t := rfl

theorem find?_key_isSome_iff {stats : List (List ℤ × ℚ × ℕ)} {p : List ℤ} :
    (stats.find? (fun e => e.1 == p)).isSome = true ↔ p ∈ statKeys stats := by
  induction stats with
  | nil => simp
  | cons e t ih =>
      by_cases h : e.1 = p
      · rw [List.find?_cons_of_pos _ (by simpa using h)]
        simp [h]
      · rw [List.find?_cons_of_neg _ (by simpa using h)]
        simp only [statKeys_cons, List.mem_cons, ih]
        constructor
        · exact Or.inr
        · rintro (rfl | hm)
          · exact absurd rfl h
          · exact hm

theorem find?_key_eq {stats : List (List ℤ × ℚ × ℕ)} {p : List ℤ}
    {e : List ℤ × ℚ × ℕ} (h : stats.find? (fun x => x.1 == p) = some e) :
    e.1 = p := by
  have := List.find?_some h
  simpa using this

theorem statKeys_addShot (numbers : List ℚ) (acc : List (List ℤ × ℚ × ℕ))
    (bits : List Bool) :
    statKeys (addShot numbers acc bits)
      = if bitstring_to_partition bits ∈ statKeys acc then statKeys acc
        else statKeys acc ++ [bitstring_to_partition bits] := by
  unfold addShot
  by_cases h : (acc.find? (fun e => e.1 == bitstring_to_partition bits)).isSome = true
  · rw [if_pos h, if_pos (find?_key_isSome_iff.mp h)]
    simp only [statKeys, List.map_map]
    apply List.map_congr_left
    intro e _
    by_cases he : e.1 == bitstring_to_partition bits <;> simp [Function.comp, he]
  · rw [if_neg h, if_neg (fun hm => h (find?_key_isSome_iff.mpr hm))]
    simp [statKeys]

theorem statKeys_nodup_addShot (numbers : List ℚ) (acc : List (List ℤ × ℚ × ℕ))
    (bits : List Bool) (h : (statKeys acc).Nodup) :
    (statKeys (addShot numbers acc bits)).Nodup := by
  rw [statKeys_addShot]
  by_cases hm : bitstring_to_partition bits ∈ statKeys acc
  · rwa [if_pos hm]
  · rw [if_neg hm]
    simp only [List.nodup_append, List.nodup_cons, List.not_mem_nil, not_false_iff,
      List.nodup_nil, and_true, true_and]
    exact ⟨h, by simpa [List.disjoint_singleton] using hm⟩

theorem costs_addShot (numbers : List ℚ) (acc : List (List ℤ × ℚ × ℕ))
    (bits : List Bool) (h : ∀ e ∈ acc, e.2.1 = compute_cost numbers e.1) :
    ∀ e ∈ addShot numbers acc bits, e.2.1 = compute_cost numbers e.1 := by
  unfold addShot
  by_cases hf : (acc.find? (fun e => e.1 == bitstring_to_partition bits)).isSome = true
  · rw [if_pos hf]
    intro e he
    obtain ⟨e', he', rfl⟩ := List.mem_map.mp he
    by_cases hb : e'.1 == bitstring_to_partition bits <;> simp [hb, h e' he']
  · rw [if_neg hf]
    intro e he
    rcases List.mem_append.mp he with h1 | h2
    · exact h e h1
    · obtain rfl := List.mem_singleton.mp h2
      rfl

theorem countsPos_addShot (numbers : List ℚ) (acc : List (List ℤ × ℚ × ℕ))
    (bits : List Bool) (h : ∀ e ∈ acc, 1 ≤ e.2.2) :
    ∀ e ∈ addShot numbers acc bits, 1 ≤ e.2.2 := by
  unfold addShot
  by_cases hf : (acc.find? (fun e => e.1 == bitstring_to_partition bits)).isSome = true
  · rw [if_pos hf]
    intro e he
    obtain ⟨e', he', rfl⟩ := List.mem_map.mp he
    by_cases hb : e'.1 == bitstring_to_partition bits
    · have h1 : (1 : ℕ) ≤ e'.2.2 + 1 := Nat.le_add_left 1 _
      simpa [hb] using h1
    · simpa [hb] using h e' he'
  · rw [if_neg hf]
    intro e he
    rcases List.mem_append.mp he with h1 | h2
    · exact h e h1
    · obtain rfl := List.mem_singleton.mp h2
      exact le_refl 1

theorem storedCount_addShot (numbers : List ℚ) (acc : List (List ℤ × ℚ × ℕ))
    (bits : List Bool) (p : List ℤ) :
    storedCount (addShot numbers acc bits) p
      = storedCount acc p + (if bitstring_to_partition bits = p then 1 else 0) := by
  unfold addShot storedCount
  by_cases hf : (acc.find? (fun e => e.1 == bitstring_to_partition bits)).isSome = true
  · rw [if_pos hf, List.find?_map]
    have hpred : ((fun e : List ℤ × ℚ × ℕ => e.1 == p)
        ∘ (fun e : List ℤ × ℚ × ℕ =>
            if e.1 == bitstring_to_partition bits then (e.1, e.2.1, e.2.2 + 1) else e))
        = (fun e : List ℤ × ℚ × ℕ => e.1 == p) := by
      funext e
      by_cases hb : e.1 == bitstring_to_partition bits <;> simp [Function.comp, hb]
    rw [hpred]
    by_cases hpq : bitstring_to_partition bits = p
    · subst hpq
      obtain ⟨e, he⟩ := Option.isSome_iff_exists.mp hf
      rw [he]
      have hek : e.1 = bitstring_to_partition bits := find?_key_eq he
      simp [hek]
    · cases hfind : acc.find? (fun e => e.1 == p) with
      | none => simp [hpq]
      | some e =>
          have hek : e.1 = p := find?_key_eq hfind
          have hne : ¬ e.1 = bitstring_to_partition bits := by
            rw [hek]
            exact fun hEq => hpq hEq.symm
          simp [hfind, hne, hpq]
  · rw [if_neg hf, List.find?_append]
    by_cases hpq : bitstring_to_partition bits = p
    · subst hpq
      have hnone : acc.find? (fun e => e.1 == bitstring_to_partition bits) = none :=
        Option.not_isSome_iff_eq_none.mp hf
      simp [hnone]
    · cases hfind : acc.find? (fun e => e.1 == p) with
      | none => simp [hpq, Ne.symm hpq]
      | some e => simp [hpq]

theorem map_key_untouched (q : List ℤ) (t : List (List ℤ × ℚ × ℕ))
    (hq : ∀ e ∈ t, e.1 ≠ q) :
    t.map (fun e => if e.1 == q then (e.1, e.2.1, e.2.2 + 1) else e) = t := by
  have h1 : t.map (fun e => if e.1 == q then (e.1, e.2.1, e.2.2 + 1) else e)
      = t.map id := by
    apply List.map_congr_left
    intro e he
    simp [hq e he]
  rw [h1, List.map_id]

theorem totalCount_bump (q : List ℤ) (acc : List (List ℤ × ℚ × ℕ))
    (hnd : (statKeys acc).Nodup) (hmem : q ∈ statKeys acc) :
    totalCount (acc.map (fun e => if e.1 == q then (e.1, e.2.1, e.2.2 + 1) else e))
      = totalCount acc + 1 := by
  induction acc with
  | nil => simp at hmem
  | cons a t ih =>
      by_cases ha : a.1 = q
      · have hqt : q ∉ statKeys t := by
          have h : a.1 ∉ statKeys t := by
            have h0 := (List.nodup_cons.mp hnd).1
            simpa [statKeys] using h0
          exact ha ▸ h
        have hrest : t.map (fun e => if e.1 == q then (e.1, e.2.1, e.2.2 + 1) else e) = t := by
          apply map_key_untouched
          intro e he hEq
          exact hqt (hEq ▸ List.mem_map.mpr ⟨e, he, rfl⟩)
        simp only [List.map_cons, hrest]
        rw [if_pos (by simpa using ha)]
        simp [totalCount]
        omega
      · have hmem' : q ∈ statKeys t := by
          rcases List.mem_cons.mp hmem with h | h
          · exact absurd h.symm ha
          · exact h
        simp only [List.map_cons]
        rw [if_neg (by simpa using ha)]
        simp only [totalCount_cons]
        rw [ih (List.nodup_cons.mp hnd).2 hmem']
        omega

theorem totalCount_addShot (numbers : List ℚ) (acc : List (List ℤ × ℚ × ℕ))
    (bits : List Bool) (hnd : (statKeys acc).Nodup) :
    totalCount (addShot numbers acc bits) = totalCount acc + 1 := by
  unfold addShot
  by_cases hf : (acc.find? (fun e => e.1 == bitstring_to_partition bits)).isSome = true
  · rw [if_pos hf]
    exact totalCount_bump _ acc hnd (find?_key_isSome_iff.mp hf)
  · rw [if_neg hf]
    simp [totalCount]

/-- Invariants of the aggregation fold: key list stays duplicate-free,
stored costs are the exact recomputed costs, stored counts are positive,
every stored count grows by exactly the number of matching shots, and the
grand total grows by the batch size. -/
theorem foldl_addShot_spec (numbers : List ℚ) (batch : List (List Bool)) :
    ∀ acc : List (List ℤ × ℚ × ℕ), (statKeys acc).Nodup →
      (∀ e ∈ acc, e.2.1 = compute_cost numbers e.1) →
      (∀ e ∈ acc, 1 ≤ e.2.2) →
      (statKeys (batch.foldl (addShot numbers) acc)).Nodup ∧
      (∀ e ∈ batch.foldl (addShot numbers) acc, e.2.1 = compute_cost numbers e.1) ∧
      (∀ e ∈ batch.foldl (addShot numbers) acc, 1 ≤ e.2.2) ∧
      (∀ p, storedCount (batch.foldl (addShot numbers) acc) p
        = storedCount acc p + batch.countP (fun bits => bitstring_to_partition bits == p)) ∧
      totalCount (batch.foldl (addShot numbers) acc) = totalCount acc + batch.length := by
  induction batch with
  | nil =>
      intro acc h1 h2 h3
      exact ⟨h1, h2, h3, fun p => by simp, by simp⟩
  | cons bits rest ih =>
      intro acc h1 h2 h3
      have h1' := statKeys_nodup_addShot numbers acc bits h1
      have h2' := costs_addShot numbers acc bits h2
      have h3' := countsPos_addShot numbers acc bits h3
      obtain ⟨g1, g2, g3, g4, g5⟩ := ih (addShot numbers acc bits) h1' h2' h3'
      refine ⟨g1, g2, g3, ?_, ?_⟩
      · intro p
        rw [List.foldl_cons, g4 p, storedCount_addShot, List.countP_cons]
        by_cases hpq : bitstring_to_partition bits = p
        · simp [hpq]
          omega
        · simp [hpq]
      · rw [List.foldl_cons, g5, totalCount_addShot numbers acc bits h1]
        simp
        omega

/-- C7.  The aggregation classifies every shot deterministically (bit 0 to
spin +1, bit 1 to spin -1) into exactly one partition, and the stored
counts over all partitions sum to exactly the number of shots. -/
theorem aggregation_counts (numbers : List ℚ) (batch : List (List Bool)) :
    totalCount (partition_costs numbers batch) = batch.length ∧
    ∀ bits : List Bool, bitstring_to_partition bits
      = bits.map (fun b => if b = false then (1 : ℤ) else -1) := by
  constructor
  · have h := (foldl_addShot_spec numbers batch [] (by simp) (by simp) (by simp)).2.2.2.2
    simpa [partition_costs] using h
  · intro bits
    apply List.map_congr_left
    intro b _
    cases b <;> rfl

theorem foldl_min_mem : ∀ (cs : List ℚ) (c : ℚ), cs.foldl min c ∈ c :: cs := by
  intro cs
  induction cs with
  | nil => intro c; simp
  | cons d t ih =>
      intro c
      rw [List.foldl_cons]
      rcases List.mem_cons.mp (ih (min c d)) with h1 | h1
      · rcases min_choice c d with hm | hm
        · exact List.mem_cons.mpr (Or.inl (h1.trans hm))
        · exact List.mem_cons.mpr (Or.inr (List.mem_cons.mpr (Or.inl (h1.trans hm))))
      · exact List.mem_cons.mpr (Or.inr (List.mem_cons.mpr (Or.inr h1)))

theorem foldl_min_le : ∀ (cs : List ℚ) (c x : ℚ), x ∈ c :: cs → cs.foldl min c ≤ x := by
  intro cs
  induction cs with
  | nil =>
      intro c x hx
      rcases List.mem_cons.mp hx with rfl | h
      · exact le_refl x
      · simp at h
  | cons d t ih =>
      intro c x hx
      rw [List.foldl_cons]
      have hhead : t.foldl min (min c d) ≤ min c d :=
        ih (min c d) (min c d) (List.mem_cons_self _ _)
      rcases List.mem_cons.mp hx with rfl | h
      · exact le_trans hhead (min_le_left _ _)
      · rcases List.mem_cons.mp h with rfl | h'
        · exact le_trans hhead (min_le_right _ _)
        · exact ih (min c d) x (List.mem_cons.mpr (Or.inr h'))

theorem min_cost_le (stats : List (List ℤ × ℚ × ℕ)) (e : List ℤ × ℚ × ℕ)
    (he : e ∈ stats) : min_cost stats ≤ e.2.1 := by
  cases stats with
  | nil => simp at he
  | cons a t =>
      have hmem : e.2.1 ∈ a.2.1 :: t.map (fun e => e.2.1) := by
        rcases List.mem_cons.mp he with rfl | h
        · exact List.mem_cons_self _ _
        · exact List.mem_cons.mpr (Or.inr (List.mem_map.mpr ⟨e, h, rfl⟩))
      exact foldl_min_le _ _ _ hmem

theorem min_cost_attained (stats : List (List ℤ × ℚ × ℕ)) (h : stats ≠ []) :
    ∃ e ∈ stats, e.2.1 = min_cost stats := by
  cases stats with
  | nil => exact absurd rfl h
  | cons a t =>
      have hmem := foldl_min_mem (t.map (fun e => e.2.1)) a.2.1
      rcases List.mem_cons.mp hmem with h1 | h1
      · exact ⟨a, List.mem_cons_self _ _, h1.symm⟩
      · obtain ⟨e, he, hv⟩ := List.mem_map.mp h1
        exact ⟨e, List.mem_cons.mpr (Or.inr he), by rw [hv]; rfl⟩

theorem filterRangeSum (n : ℕ) (f : ℕ → Bool) (g : ℕ → ℚ) :
    (((List.range n).filter f).map g).sum
      = ∑ i ∈ Finset.range n, (if f i then g i else 0) := by
  induction n with
  | zero => simp
  | succ n ih =>
      rw [List.range_succ, List.filter_append, List.map_append, List.sum_append, ih,
        Finset.sum_range_succ]
      by_cases hf : f n <;> simp [hf]

theorem imbalance_eq_sum_range (numbers : List ℚ) (spins : List ℤ)
    (h : spins.length = numbers.length) :
    imbalance numbers spins
      = ∑ i ∈ Finset.range numbers.length, numbers.getD i 0 * (spins.getD i 0 : ℚ) := by
  induction numbers generalizing spins with
  | nil => simp [imbalance]
  | cons a t ih =>
      cases spins with
      | nil => simp at h
      | cons s u =>
          have h' : u.length = t.length := by simpa using h
          have hstep : imbalance (a :: t) (s :: u) = a * (s : ℚ) + imbalance t u := by
            simp [imbalance]
          rw [hstep, ih u h', List.length_cons, Finset.sum_range_succ']
          simp only [List.getD_cons_succ, List.getD_cons_zero]
          rw [add_comm]

theorem subset_diff_eq_imbalance (numbers : List ℚ) (p : List ℤ)
    (hlen : p.length = numbers.length)
    (hpm : ∀ i < p.length, p.getD i 0 = 1 ∨ p.getD i 0 = -1) :
    (subsetA numbers p).sum - (subsetB numbers p).sum = imbalance numbers p := by
  unfold subsetA subsetB
  rw [filterRangeSum, filterRangeSum, imbalance_eq_sum_range numbers p hlen,
    ← Finset.sum_sub_distrib]
  apply Finset.sum_congr rfl
  intro i hi
  have hi' : i < p.length := by
    rw [hlen]
    exact Finset.mem_range.mp hi
  rcases hpm i hi' with h1 | h1
  · rw [List.getD_eq_getElem?_getD] at h1
    simp [h1]
  · rw [List.getD_eq_getElem?_getD] at h1
    simp [h1]

theorem partition_length (bits : List Bool) :
    (bitstring_to_partition bits).length = bits.length := by
  simp [bitstring_to_partition]

theorem partition_entries (bits : List Bool) :
    ∀ i < (bitstring_to_partition bits).length,
      (bitstring_to_partition bits).getD i 0 = 1
        ∨ (bitstring_to_partition bits).getD i 0 = -1 := by
  intro i hi
  induction bits generalizing i with
  | nil => simp [bitstring_to_partition] at hi
  | cons b t ih =>
      cases i with
      | zero => cases b <;> simp [bitstring_to_partition, bitSpin]
      | succ i =>
          simp only [bitstring_to_partition, List.map_cons, List.getD_cons_succ]
          exact ih i (by simpa [bitstring_to_partition] using hi)

/-- C6.  On a non-empty batch the decoder reports exactly the observed
partitions of globally minimal cost (all ties kept), and each reported row
carries the subset of numbers with spin +1, the subset with spin -1, the
signed (not squared) sum difference - which equals the imbalance - and the
observed count of that partition. -/
theorem decoder_reports_minima (numbers : List ℚ) (batch : List (List Bool))
    (hne : batch ≠ [])
    (hlen : ∀ bits ∈ batch, bits.length = numbers.length) :
    (∀ p : List ℤ,
      (∃ r ∈ table_data numbers (partition_costs numbers batch), r.1 = p) ↔
        ((∃ bits ∈ batch, bitstring_to_partition bits = p) ∧
          ∀ bits ∈ batch, compute_cost numbers p
            ≤ compute_cost numbers (bitstring_to_partition bits))) ∧
    (∀ r ∈ table_data numbers (partition_costs numbers batch),
      r.2.1 = subsetA numbers r.1 ∧
      r.2.2.1 = subsetB numbers r.1 ∧
      r.2.2.2.1 = (subsetA numbers r.1).sum - (subsetB numbers r.1).sum ∧
      r.2.2.2.1 = imbalance numbers r.1 ∧
      r.2.2.2.2 = batch.countP (fun bits => bitstring_to_partition bits == r.1)) := by
  obtain ⟨hnd, hcost, hpos, hcount, htot⟩ :=
    foldl_addShot_spec numbers batch [] (by simp) (by simp) (by simp)
  set stats := partition_costs numbers batch with hstats
  have hcount' : ∀ p, storedCount stats p
      = batch.countP (fun bits => bitstring_to_partition bits == p) := by
    intro p
    have h := hcount p
    simpa [partition_costs, storedCount] using h
  have hmem_iff : ∀ p, p ∈ statKeys stats
      ↔ ∃ bits ∈ batch, bitstring_to_partition bits = p := by
    intro p
    rw [← find?_key_isSome_iff]
    constructor
    · intro h
      obtain ⟨e, he⟩ := Option.isSome_iff_exists.mp h
      have h1 : storedCount stats p = e.2.2 := by
        unfold storedCount
        rw [he]
      have h2 : 1 ≤ e.2.2 := hpos e (List.mem_of_find?_eq_some he)
      have h3 : 0 < batch.countP (fun bits => bitstring_to_partition bits == p) := by
        rw [← hcount']
        omega
      obtain ⟨bits, hb, hp⟩ := List.countP_pos.mp h3
      exact ⟨bits, hb, by simpa using hp⟩
    · rintro ⟨bits, hb, rfl⟩
      have h3 : 0 < batch.countP
          (fun b => bitstring_to_partition b == bitstring_to_partition bits) :=
        List.countP_pos.mpr ⟨bits, hb, by simp⟩
      have h4 : 0 < storedCount stats (bitstring_to_partition bits) := by
        rw [hcount']
        exact h3
      cases hf : stats.find? (fun e => e.1 == bitstring_to_partition bits) with
      | none =>
          rw [storedCount, hf] at h4
          simp at h4
      | some e => simp [hf]
  have hentry : ∀ p, p ∈ statKeys stats →
      ∃ e ∈ stats, e.1 = p ∧ e.2.1 = compute_cost numbers p := by
    intro p h
    obtain ⟨e, he, hk⟩ := List.mem_map.mp h
    exact ⟨e, he, hk, by rw [← hk]; exact hcost e he⟩
  have hstats_ne : stats ≠ [] := by
    intro hnil
    have h0 : totalCount stats = batch.length := by
      simpa [partition_costs] using htot
    rw [hnil] at h0
    exact hne (List.length_eq_zero.mp h0.symm)
  -- the minimum stored cost is the cost of some observed partition
  obtain ⟨e0, he0, he0min⟩ := min_cost_attained stats hstats_ne
  have he0key : e0.1 ∈ statKeys stats := List.mem_map.mpr ⟨e0, he0, rfl⟩
  have he0cost : e0.2.1 = compute_cost numbers e0.1 := hcost e0 he0
  -- characterisation of optimal_partitions membership
  have hopt_iff : ∀ p, p ∈ optimal_partitions stats
      ↔ ((∃ bits ∈ batch, bitstring_to_partition bits = p) ∧
          ∀ bits ∈ batch, compute_cost numbers p
            ≤ compute_cost numbers (bitstring_to_partition bits)) := by
    intro p
    unfold optimal_partitions
    rw [List.mem_map]
    constructor
    · rintro ⟨e, hef, rfl⟩
      have hes : e ∈ stats := List.mem_of_mem_filter hef
      have hemin : e.2.1 = min_cost stats := by
        have h := List.of_mem_filter hef
        simpa using h
      have hkey : e.1 ∈ statKeys stats := List.mem_map.mpr ⟨e, hes, rfl⟩
      refine ⟨(hmem_iff e.1).mp hkey, ?_⟩
      intro bits hb
      have hqkey : bitstring_to_partition bits ∈ statKeys stats :=
        (hmem_iff _).mpr ⟨bits, hb, rfl⟩
      obtain ⟨e', he', hk', hc'⟩ := hentry _ hqkey
      have hle : min_cost stats ≤ e'.2.1 := min_cost_le stats e' he'
      rw [hc'] at hle
      rw [← hcost e hes, hemin]
      exact hle
    · rintro ⟨⟨bits, hb, rfl⟩, hminp⟩
      have hkey : bitstring_to_partition bits ∈ statKeys stats :=
        (hmem_iff _).mpr ⟨bits, hb, rfl⟩
      obtain ⟨e, he, hk, hc⟩ := hentry _ hkey
      refine ⟨e, ?_, hk⟩
      rw [List.mem_filter]
      refine ⟨he, ?_⟩
      have h1 : min_cost stats ≤ e.2.1 := min_cost_le stats e he
      have h2 : e.2.1 ≤ min_cost stats := by
        obtain ⟨bits0, hb0, hp0⟩ := (hmem_iff e0.1).mp he0key
        have h3 := hminp bits0 hb0
        rw [hp0] at h3
        rw [hc, ← he0min, he0cost]
        exact h3
      have : e.2.1 = min_cost stats := le_antisymm h2 h1
      simpa using this
  constructor
  · intro p
    rw [← hopt_iff p]
    unfold table_data
    constructor
    · rintro ⟨r, hr, rfl⟩
      obtain ⟨q, hq, rfl⟩ := List.mem_map.mp hr
      exact hq
    · intro hp
      exact ⟨_, List.mem_map.mpr ⟨p, hp, rfl⟩, rfl⟩
  · intro r hr
    obtain ⟨p, hp, rfl⟩ := List.mem_map.mp hr
    refine ⟨rfl, rfl, rfl, ?_, ?_⟩
    · obtain ⟨⟨bits, hb, rfl⟩, _⟩ := (hopt_iff p).mp hp
      apply subset_diff_eq_imbalance
      · rw [partition_length]
        exact hlen bits hb
      · exact partition_entries bits
    · exact hcount' p

theorem decoder_reports_minima_witness :
    (([[false, true], [true, true]] : List (List Bool)) ≠ []) ∧
    (∀ bits ∈ ([[false, true], [true, true]] : List (List Bool)),
        bits.length = [(1 : ℚ), 2].length) ∧
    ((∀ p : List ℤ,
      (∃ r ∈ table_data [(1 : ℚ), 2]
          (partition_costs [(1 : ℚ), 2] [[false, true], [true, true]]), r.1 = p) ↔
        ((∃ bits ∈ ([[false, true], [true, true]] : List (List Bool)),
            bitstring_to_partition bits = p) ∧
          ∀ bits ∈ ([[false, true], [true, true]] : List (List Bool)),
            compute_cost [(1 : ℚ), 2] p
              ≤ compute_cost [(1 : ℚ), 2] (bitstring_to_partition bits))) ∧
    (∀ r ∈ table_data [(1 : ℚ), 2]
        (partition_costs [(1 : ℚ), 2] [[false, true], [true, true]]),
      r.2.1 = subsetA [(1 : ℚ), 2] r.1 ∧
      r.2.2.1 = subsetB [(1 : ℚ), 2] r.1 ∧
      r.2.2.2.1 = (subsetA [(1 : ℚ), 2] r.1).sum - (subsetB [(1 : ℚ), 2] r.1).sum ∧
      r.2.2.2.1 = imbalance [(1 : ℚ), 2] r.1 ∧
      r.2.2.2.2 = ([[false, true], [true, true]] : List (List Bool)).countP
          (fun bits => bitstring_to_partition bits == r.1))) :=
  ⟨by decide, by decide,
    decoder_reports_minima [(1 : ℚ), 2] [[false, true], [true, true]]
      (by decide) (by decide)⟩

theorem rxBlock_total (params : List ℚ) : ∀ (l : List ℕ) (idx : ℕ),
    idx + l.length ≤ params.length →
    ∃ gs, rxBlock params l idx = some (gs, idx + l.length) ∧ gs.length = l.length := by
  intro l
  induction l with
  | nil => intro idx _; exact ⟨[], rfl, rfl⟩
  | cons i rest ih =>
      intro idx h
      have hidx : idx < params.length := by
        simp only [List.length_cons] at h
        omega
      have htheta : params[idx]? = some params[idx] := List.getElem?_eq_getElem hidx
      obtain ⟨gs, hgs, hglen⟩ := ih (idx + 1) (by simp only [List.length_cons] at h ⊢; omega)
      refine ⟨Gate.rx params[idx] i :: gs, ?_, by simp [hglen]⟩
      have harith : idx + 1 + rest.length = idx + (i :: rest).length := by
        simp only [List.length_cons]
        omega
      rw [rxBlock, htheta, hgs, harith]

theorem zzBlock_total (params : List ℚ) : ∀ (l : List (ℕ × ℕ)) (idx : ℕ),
    idx + l.length ≤ params.length →
    (zzBlock params l idx).2 = idx + l.length ∧
    (zzBlock params l idx).1.length = l.length := by
  intro l
  induction l with
  | nil => intro idx _; exact ⟨rfl, rfl⟩
  | cons ij rest ih =>
      obtain ⟨i, j⟩ := ij
      intro idx h
      have hidx : idx < params.length := by
        simp only [List.length_cons] at h
        omega
      obtain ⟨h1, h2⟩ := ih (idx + 1) (by simp only [List.length_cons] at h ⊢; omega)
      rw [zzBlock, if_pos hidx]
      constructor
      · simp only [h1, List.length_cons]
        omega
      · simp [h2]

theorem layersLoop_total (params : List ℚ) (n : ℕ) : ∀ (L idx : ℕ),
    idx + L * layer_size n ≤ params.length →
    ∃ gs, layersLoop params n L idx = some (gs, idx + L * layer_size n) ∧
      gs.length = L * layer_size n := by
  intro L
  induction L with
  | zero => intro idx _; exact ⟨[], by simp [layersLoop], by simp⟩
  | succ L ih =>
      intro idx h
      have hsize : layer_size n = n + (indexPairs n).length := by
        rw [indexPairs_length]
        rfl
      have hmul : (L + 1) * layer_size n = L * layer_size n + layer_size n :=
        Nat.succ_mul L (layer_size n)
      obtain ⟨g1, hg1, hl1⟩ := rxBlock_total params (List.range n) idx
        (by rw [List.length_range]; omega)
      rw [List.length_range] at hg1 hl1
      obtain ⟨hz1, hz2⟩ := zzBlock_total params (indexPairs n) (idx + n) (by omega)
      obtain ⟨gs, hgs, hlgs⟩ := ih (idx + n + (indexPairs n).length) (by omega)
      refine ⟨g1 ++ (zzBlock params (indexPairs n) (idx + n)).1 ++ gs, ?_, ?_⟩
      · rw [layersLoop, hg1]
        dsimp only
        rw [hz1, hgs]
        dsimp only
        have harith : idx + n + (indexPairs n).length + L * layer_size n
            = idx + (L + 1) * layer_size n := by omega
        rw [harith]
      · simp only [List.length_append, hl1, hz2, hlgs]
        omega

/-- Totality and exact parameter consumption of the ansatz builder: it
always succeeds, builds the Hadamard block plus exactly
`len(params) // layer_size` full layers, and the layer loop consumes
exactly the first `n_layers * layer_size` parameters. -/
theorem create_ansatz_exists (params : List ℚ) (n : ℕ) :
    ∃ gs, create_ansatz params n = some gs ∧
      gs.length = n + params.length / layer_size n * layer_size n ∧
      ∃ body, layersLoop params n (params.length / layer_size n) 0
          = some (body, params.length / layer_size n * layer_size n) := by
  have hbound : 0 + params.length / layer_size n * layer_size n ≤ params.length := by
    have := Nat.div_mul_le_self params.length (layer_size n)
    omega
  obtain ⟨body, hbody, hblen⟩ :=
    layersLoop_total params n (params.length / layer_size n) 0 hbound
  rw [Nat.zero_add] at hbody
  refine ⟨(List.range n).map Gate.h ++ body, ?_, ?_, body, hbody⟩
  · rw [create_ansatz, hbody]
  · simp [hblen]

theorem rxBlock_take (params : List ℚ) (m : ℕ) : ∀ (l : List ℕ) (idx : ℕ),
    idx + l.length ≤ m →
    rxBlock (params.take m) l idx = rxBlock params l idx := by
  intro l
  induction l with
  | nil => intro idx _; rfl
  | cons i rest ih =>
      intro idx h
      have hidx : idx < m := by
        simp only [List.length_cons] at h
        omega
      have hget : (params.take m)[idx]? = params[idx]? := by
        rw [List.getElem?_take, if_pos hidx]
      rw [rxBlock, rxBlock, hget]
      cases params[idx]? with
      | none => rfl
      | some theta =>
          rw [ih (idx + 1) (by simp only [List.length_cons] at h ⊢; omega)]

theorem zzBlock_take (params : List ℚ) (m : ℕ) : ∀ (l : List (ℕ × ℕ)) (idx : ℕ),
    idx + l.length ≤ m →
    zzBlock (params.take m) l idx = zzBlock params l idx := by
  intro l
  induction l with
  | nil => intro idx _; rfl
  | cons ij rest ih =>
      obtain ⟨i, j⟩ := ij
      intro idx h
      have hidxm : idx < m := by
        simp only [List.length_cons] at h
        omega
      have hguard : idx < (params.take m).length ↔ idx < params.length := by
        rw [List.length_take]
        omega
      by_cases hg : idx < params.length
      · have hgetD : (params.take m).getD idx 0 = params.getD idx 0 := by
          rw [List.getD_eq_getElem?_getD, List.getD_eq_getElem?_getD,
            List.getElem?_take, if_pos hidxm]
        rw [zzBlock, zzBlock, if_pos hg, if_pos (hguard.mpr hg), hgetD,
          ih (idx + 1) (by simp only [List.length_cons] at h ⊢; omega)]
      · rw [zzBlock, zzBlock, if_neg hg, if_neg (fun hc => hg (hguard.mp hc))]
        exact ih idx (by simp only [List.length_cons] at h ⊢; omega)

theorem rxBlock_idx (params : List ℚ) : ∀ (l : List ℕ) (idx : ℕ)
    (gs : List Gate) (idx' : ℕ),
    rxBlock params l idx = some (gs, idx') → idx' = idx + l.length := by
  intro l
  induction l with
  | nil =>
      intro idx gs idx' h
      rw [rxBlock] at h
      simp only [Option.some.injEq, Prod.mk.injEq] at h
      simp [h.2.symm]
  | cons i rest ih =>
      intro idx gs idx' h
      rw [rxBlock] at h
      cases hget : params[idx]? with
      | none =>
          rw [hget] at h
          exact absurd h (by simp)
      | some theta =>
          rw [hget] at h
          cases hrec : rxBlock params rest (idx + 1) with
          | none =>
              rw [hrec] at h
              exact absurd h (by simp)
          | some gsi =>
              obtain ⟨gs0, i0⟩ := gsi
              rw [hrec] at h
              simp only [Option.some.injEq, Prod.mk.injEq] at h
              have := ih (idx + 1) gs0 i0 hrec
              simp only [List.length_cons]
              omega

theorem zzBlock_idx_le (params : List ℚ) : ∀ (l : List (ℕ × ℕ)) (idx : ℕ),
    (zzBlock params l idx).2 ≤ idx + l.length := by
  intro l
  induction l with
  | nil => intro idx; simp [zzBlock]
  | cons ij rest ih =>
      obtain ⟨i, j⟩ := ij
      intro idx
      rw [zzBlock]
      by_cases hg : idx < params.length
      · rw [if_pos hg]
        have := ih (idx + 1)
        simp only [List.length_cons]
        omega
      · rw [if_neg hg]
        have := ih idx
        simp only [List.length_cons]
        omega

theorem layersLoop_take (params : List ℚ) (m : ℕ) (n : ℕ) : ∀ (L idx : ℕ),
    idx + L * layer_size n ≤ m →
    layersLoop (params.take m) n L idx = layersLoop params n L idx := by
  intro L
  induction L with
  | zero => intro idx _; rfl
  | succ L ih =>
      intro idx h
      have hsize : layer_size n = n + (indexPairs n).length := by
        rw [indexPairs_length]
        rfl
      have hmul : (L + 1) * layer_size n = L * layer_size n + layer_size n :=
        Nat.succ_mul L (layer_size n)
      have hrx : rxBlock (params.take m) (List.range n) idx
          = rxBlock params (List.range n) idx :=
        rxBlock_take params m (List.range n) idx (by rw [List.length_range]; omega)
      rw [layersLoop, layersLoop, hrx]
      cases hres : rxBlock params (List.range n) idx with
      | none => rfl
      | some gidx =>
          obtain ⟨g1, idx1⟩ := gidx
          dsimp only
          have hidx1 : idx1 = idx + n := by
            have := rxBlock_idx params (List.range n) idx g1 idx1 hres
            rwa [List.length_range] at this
          have hzz : zzBlock (params.take m) (indexPairs n) idx1
              = zzBlock params (indexPairs n) idx1 :=
            zzBlock_take params m (indexPairs n) idx1 (by omega)
          have hz2 : (zzBlock params (indexPairs n) idx1).2 ≤ idx1 + (indexPairs n).length :=
            zzBlock_idx_le params (indexPairs n) idx1
          have hrec : layersLoop (params.take m) n L (zzBlock params (indexPairs n) idx1).2
              = layersLoop params n L (zzBlock params (indexPairs n) idx1).2 :=
            ih (zzBlock params (indexPairs n) idx1).2 (by omega)
          rw [hzz, hrec]

/-- Trailing parameters short of a whole layer are never read: the
circuit depends only on the first `n_layers * layer_size` parameters. -/
theorem create_ansatz_unused_tail (params : List ℚ) (n : ℕ) :
    create_ansatz params n
      = create_ansatz (params.take (params.length / layer_size n * layer_size n)) n := by
  by_cases hS : 0 < layer_size n
  · have hmle : params.length / layer_size n * layer_size n ≤ params.length :=
      Nat.div_mul_le_self _ _
    have hnl : (params.take (params.length / layer_size n * layer_size n)).length
        = params.length / layer_size n * layer_size n := by
      rw [List.length_take]
      omega
    have hnl2 : (params.take (params.length / layer_size n * layer_size n)).length
        / layer_size n = params.length / layer_size n := by
      rw [hnl, Nat.mul_div_cancel _ hS]
    unfold create_ansatz
    rw [hnl2, layersLoop_take params (params.length / layer_size n * layer_size n) n
      (params.length / layer_size n) 0 (by omega)]
  · have hS0 : layer_size n = 0 := by omega
    have h0 : params.length / layer_size n = 0 := by
      rw [hS0]
      exact Nat.div_zero _
    unfold create_ansatz
    rw [hS0] at h0 ⊢
    rw [h0]
    simp [layersLoop]

/-- C10.  `create_ansatz` is total and never indexes out of range: it
builds exactly `len(params) // layer_size` full layers, the layer loop
ends with parameter index exactly `n_layers * layer_size` (so the in-loop
guard never skips a rotation of a counted layer), and trailing parameters
short of a whole layer are entirely unused, without error. -/
theorem create_ansatz_safe (params : List ℚ) (n : ℕ) (hn : 1 ≤ n) :
    ∃ gs, create_ansatz params n = some gs ∧
      gs.length = n + params.length / layer_size n * layer_size n ∧
      (∃ body, layersLoop params n (params.length / layer_size n) 0
          = some (body, params.length / layer_size n * layer_size n)) ∧
      create_ansatz params n
        = create_ansatz (params.take (params.length / layer_size n * layer_size n)) n := by
  obtain ⟨gs, hgs, hlen, hbody⟩ := create_ansatz_exists params n
  exact ⟨gs, hgs, hlen, hbody, create_ansatz_unused_tail params n⟩

theorem create_ansatz_safe_witness :
    1 ≤ 2 ∧
    ∃ gs, create_ansatz [1, 2, 3, 4, 5, 6, 7] 2 = some gs ∧
      gs.length = 2 + [(1 : ℚ), 2, 3, 4, 5, 6, 7].length / layer_size 2 * layer_size 2 ∧
      (∃ body, layersLoop [1, 2, 3, 4, 5, 6, 7] 2
          ([(1 : ℚ), 2, 3, 4, 5, 6, 7].length / layer_size 2) 0
          = some (body,
              [(1 : ℚ), 2, 3, 4, 5, 6, 7].length / layer_size 2 * layer_size 2)) ∧
      create_ansatz [1, 2, 3, 4, 5, 6, 7] 2
        = create_ansatz ([(1 : ℚ), 2, 3, 4, 5, 6, 7].take
            ([(1 : ℚ), 2, 3, 4, 5, 6, 7].length / layer_size 2 * layer_size 2)) 2 :=
  ⟨by decide, create_ansatz_safe [1, 2, 3, 4, 5, 6, 7] 2 (by decide)⟩

/-- C4 counterexample.  A parameter vector of length 4 with 2 qubits
(layer size 3, so the length is not a multiple of the layer structure)
does not make `create_ansatz` fail: it silently builds one full layer and
ignores the fourth parameter. -/
theorem ansatz_mismatch_counterexample :
    create_ansatz [1, 2, 3, 4] 2
      = some [Gate.h 0, Gate.h 1, Gate.rx 1 0, Gate.rx 2 1, Gate.zz 3 0 1] := by
  rfl

/-- C4 amended.  A parameter vector whose length is not an exact multiple
of the layer size is silently tolerated, not rejected: `create_ansatz`
still succeeds and its output only depends on the first
`n_layers * layer_size` parameters. -/
theorem ansatz_mismatch_tolerated (params : List ℚ) (n : ℕ) (hn : 1 ≤ n)
    (hmis : ¬ layer_size n ∣ params.length) :
    (create_ansatz params n).isSome = true ∧
    create_ansatz params n
      = create_ansatz (params.take (params.length / layer_size n * layer_size n)) n := by
  obtain ⟨gs, hgs, -, -⟩ := create_ansatz_exists params n
  exact ⟨by rw [hgs]; rfl, create_ansatz_unused_tail params n⟩

theorem ansatz_mismatch_tolerated_witness :
    (1 ≤ 2 ∧ ¬ layer_size 2 ∣ [(1 : ℚ), 2, 3, 4].length) ∧
    ((create_ansatz [1, 2, 3, 4] 2).isSome = true ∧
      create_ansatz [1, 2, 3, 4] 2
        = create_ansatz ([(1 : ℚ), 2, 3, 4].take
            ([(1 : ℚ), 2, 3, 4].length / layer_size 2 * layer_size 2)) 2) :=
  ⟨⟨by decide, by decide⟩, ansatz_mismatch_tolerated [1, 2, 3, 4] 2 (by decide) (by decide)⟩

/-- C3.  For a normalised exact state the energy of the estimator is the
constant term plus the weighted sum of pairwise parity expectations, each
of which lies in the interval [-1, 1]. -/
theorem exact_energy_decomposition (numbers : List ℚ)
    (psi : (Fin numbers.length → Bool) → ℚ × ℚ)
    (hnorm : ∑ b : Fin numbers.length → Bool, normSq (psi b) = 1) :
    expectation_value numbers psi
      = constant_term numbers +
        ∑ p : Fin numbers.length × Fin numbers.length,
          (if p.1 < p.2 then
            2 * numbers.getD (p.1 : ℕ) 0 * numbers.getD (p.2 : ℕ) 0
              * zzExpectation psi p.1 p.2
          else 0) ∧
    ∀ i j : Fin numbers.length,
      -1 ≤ zzExpectation psi i j ∧ zzExpectation psi i j ≤ 1 := by
  refine ⟨rfl, ?_⟩
  intro i j
  have hpos : ∀ b : Fin numbers.length → Bool, 0 ≤ normSq (psi b) := by
    intro b
    unfold normSq
    have h1 := mul_self_nonneg (psi b).1
    have h2 := mul_self_nonneg (psi b).2
    linarith
  have hbound : ∀ b : Fin numbers.length → Bool,
      spinQ (b i) * spinQ (b j) = 1 ∨ spinQ (b i) * spinQ (b j) = -1 := by
    intro b
    cases hbi : b i <;> cases hbj : b j <;> simp [spinQ, hbi, hbj]
  have hs1 : ∀ b : Fin numbers.length → Bool, spinQ (b i) * spinQ (b j) ≤ 1 := by
    intro b
    rcases hbound b with h | h <;> rw [h] <;> norm_num
  have hs2 : ∀ b : Fin numbers.length → Bool, -1 ≤ spinQ (b i) * spinQ (b j) := by
    intro b
    rcases hbound b with h | h <;> rw [h] <;> norm_num
  unfold zzExpectation
  constructor
  · have h1 : ∑ b : Fin numbers.length → Bool, normSq (psi b) * (-1 : ℚ)
        ≤ ∑ b : Fin numbers.length → Bool,
            normSq (psi b) * (spinQ (b i) * spinQ (b j)) :=
      Finset.sum_le_sum (fun b _ => mul_le_mul_of_nonneg_left (hs2 b) (hpos b))
    have h2 : ∑ b : Fin numbers.length → Bool, normSq (psi b) * (-1 : ℚ) = -1 := by
      rw [← Finset.sum_mul, hnorm]
      ring
    rw [h2] at h1
    exact h1
  · have h1 : ∑ b : Fin numbers.length → Bool,
        normSq (psi b) * (spinQ (b i) * spinQ (b j))
        ≤ ∑ b : Fin numbers.length → Bool, normSq (psi b) :=
      Finset.sum_le_sum (fun b _ => mul_le_of_le_one_right (hpos b) (hs1 b))
    rwa [hnorm] at h1

theorem uniform_two_norm :
    ∑ b : Fin ([(1 : ℚ), 2].length) → Bool,
      normSq ((fun _ => ((1 : ℚ)/2, (0 : ℚ))) b) = 1 := by
  have h : ∀ b : Fin ([(1 : ℚ), 2].length) → Bool,
      normSq ((fun _ => ((1 : ℚ)/2, (0 : ℚ))) b) = 1/4 := by
    intro b
    norm_num [normSq]
  rw [Finset.sum_congr rfl (fun b _ => h b), Finset.sum_const, Finset.card_univ]
  norm_num [Fintype.card_fun]

theorem exact_energy_decomposition_witness :
    (∑ b : Fin ([(1 : ℚ), 2].length) → Bool,
        normSq ((fun _ => ((1 : ℚ)/2, (0 : ℚ))) b) = 1) ∧
    (expectation_value [(1 : ℚ), 2] (fun _ => (1/2, 0))
      = constant_term [(1 : ℚ), 2] +
        ∑ p : Fin ([(1 : ℚ), 2].length) × Fin ([(1 : ℚ), 2].length),
          (if p.1 < p.2 then
            2 * [(1 : ℚ), 2].getD (p.1 : ℕ) 0 * [(1 : ℚ), 2].getD (p.2 : ℕ) 0
              * zzExpectation (fun _ => (1/2, 0)) p.1 p.2
          else 0) ∧
    ∀ i j : Fin ([(1 : ℚ), 2].length),
      -1 ≤ zzExpectation (fun _ => ((1 : ℚ)/2, (0 : ℚ))) i j ∧
        zzExpectation (fun _ => ((1 : ℚ)/2, (0 : ℚ))) i j ≤ 1) :=
  ⟨uniform_two_norm, exact_energy_decomposition [(1 : ℚ), 2] (fun _ => (1/2, 0))
    uniform_two_norm⟩

/-- Vanishing of the pure parity sum over all basis states for two
distinct qubits, by the involution that flips the first qubit. -/
theorem sum_spin_pair {n : ℕ} (i j : Fin n) (hij : i ≠ j) :
    ∑ b : Fin n → Bool, spinQ (b i) * spinQ (b j) = 0 := by
  refine Finset.sum_involution (fun b _ => Function.update b i (!(b i))) ?_ ?_ ?_ ?_
  · intro b _
    dsimp only
    have h1 : Function.update b i (!(b i)) i = !(b i) := by simp
    have h2 : Function.update b i (!(b i)) j = b j :=
      Function.update_noteq (Ne.symm hij) _ b
    rw [h1, h2]
    cases hbi : b i <;> cases hbj : b j <;> norm_num [spinQ]
  · intro b _ _ hEq
    have h := congrFun hEq i
    simp at h
  · intro b _
    exact Finset.mem_univ _
  · intro b _
    funext x
    by_cases hx : x = i
    · subst hx
      simp
    · simp [Function.update_noteq hx]

theorem spin_sq (b : Bool) : spinQ b * spinQ b = 1 := by
  cases b <;> norm_num [spinQ]

theorem sum_spin_pair_full {n : ℕ} (i j : Fin n) :
    ∑ b : Fin n → Bool, spinQ (b i) * spinQ (b j)
      = if i = j then (2 : ℚ) ^ n else 0 := by
  by_cases hij : i = j
  · subst hij
    rw [if_pos rfl]
    rw [Finset.sum_congr rfl (fun b _ => spin_sq (b i))]
    rw [Finset.sum_const, Finset.card_univ]
    simp [Fintype.card_fun]
  · rw [if_neg hij]
    exact sum_spin_pair i j hij

/-- C9.  On any state whose Born probabilities are uniform - which is the
state the hardware-efficient ansatz prepares when all parameters are 0,
since `rx(0)` and a `ZZ` power with exponent 0 are both the identity,
leaving the initial Hadamard-layer uniform superposition untouched -
every pairwise Z_i Z_j expectation vanishes, the exact-mode energy equals
the constant term, and it equals the brute-force enumeration of the
Hamiltonian expectation over the uniform distribution of all 2^n
bitstrings. -/
theorem zero_parameter_energy (numbers : List ℚ)
    (psi : (Fin numbers.length → Bool) → ℚ × ℚ)
    (hunif : ∀ b, normSq (psi b) = 1 / 2 ^ numbers.length) :
    (∀ i j : Fin numbers.length, i ≠ j → zzExpectation psi i j = 0) ∧
    expectation_value numbers psi = constant_term numbers ∧
    expectation_value numbers psi = bruteForceUniformEnergy numbers := by
  have hzz : ∀ i j : Fin numbers.length, i ≠ j → zzExpectation psi i j = 0 := by
    intro i j hij
    unfold zzExpectation
    rw [Finset.sum_congr rfl (fun b _ => by rw [hunif b]), ← Finset.mul_sum,
      sum_spin_pair i j hij, mul_zero]
  have hconst : expectation_value numbers psi = constant_term numbers := by
    unfold expectation_value
    have hz : ∀ p : Fin numbers.length × Fin numbers.length,
        (if p.1 < p.2 then
          2 * numbers.getD (p.1 : ℕ) 0 * numbers.getD (p.2 : ℕ) 0
            * zzExpectation psi p.1 p.2
        else 0) = 0 := by
      intro p
      by_cases hp : p.1 < p.2
      · rw [if_pos hp, hzz p.1 p.2 (Fin.ne_of_lt hp), mul_zero]
      · rw [if_neg hp]
    rw [Finset.sum_congr rfl (fun p _ => hz p), Finset.sum_const, smul_zero, add_zero]
  have hsq : ∀ b : Fin numbers.length → Bool,
      (∑ i : Fin numbers.length, numbers.getD (i : ℕ) 0 * spinQ (b i)) ^ 2
        = ∑ i : Fin numbers.length, ∑ j : Fin numbers.length,
            numbers.getD (i : ℕ) 0 * numbers.getD (j : ℕ) 0
              * (spinQ (b i) * spinQ (b j)) := by
    intro b
    rw [sq, Finset.sum_mul_sum]
    apply Finset.sum_congr rfl
    intro i _
    apply Finset.sum_congr rfl
    intro j _
    ring
  have hnum : ∑ b : Fin numbers.length → Bool,
      ∑ i : Fin numbers.length, ∑ j : Fin numbers.length,
        numbers.getD (i : ℕ) 0 * numbers.getD (j : ℕ) 0
          * (spinQ (b i) * spinQ (b j))
      = constant_term numbers * 2 ^ numbers.length := by
    rw [Finset.sum_comm]
    rw [Finset.sum_congr rfl (fun i _ => Finset.sum_comm)]
    have hpull : ∀ i j : Fin numbers.length,
        ∑ b : Fin numbers.length → Bool,
          numbers.getD (i : ℕ) 0 * numbers.getD (j : ℕ) 0
            * (spinQ (b i) * spinQ (b j))
        = numbers.getD (i : ℕ) 0 * numbers.getD (j : ℕ) 0
            * ∑ b : Fin numbers.length → Bool, spinQ (b i) * spinQ (b j) :=
      fun i j => (Finset.mul_sum _ _ _).symm
    rw [Finset.sum_congr rfl (fun i _ => Finset.sum_congr rfl (fun j _ =>
      (hpull i j).trans (by rw [sum_spin_pair_full i j])))]
    have hdiag : ∀ i : Fin numbers.length,
        ∑ j : Fin numbers.length,
          numbers.getD (i : ℕ) 0 * numbers.getD (j : ℕ) 0
            * (if i = j then (2 : ℚ) ^ numbers.length else 0)
        = numbers.getD (i : ℕ) 0 * numbers.getD (i : ℕ) 0 * 2 ^ numbers.length := by
      intro i
      rw [Finset.sum_eq_single i]
      · rw [if_pos rfl]
      · intro j _ hji
        rw [if_neg (fun hEq => hji hEq.symm), mul_zero]
      · intro hi
        exact absurd (Finset.mem_univ i) hi
    rw [Finset.sum_congr rfl (fun i _ => hdiag i), ← Finset.sum_mul]
    congr 1
    rw [Fin.sum_univ_eq_sum_range (fun k => numbers.getD k 0 * numbers.getD k 0)
      numbers.length]
    exact (sum_map_eq_sum_range numbers (fun a => a * a)).symm
  have hbf : bruteForceUniformEnergy numbers = constant_term numbers := by
    unfold bruteForceUniformEnergy
    rw [Finset.sum_congr rfl (fun b _ => hsq b), hnum]
    have h2n : (2 : ℚ) ^ numbers.length ≠ 0 := by positivity
    field_simp
  exact ⟨hzz, hconst, hconst.trans hbf.symm⟩

theorem uniform_three_probs :
    ∀ b : Fin ([(1 : ℚ), 2, 3].length) → Bool,
      normSq ((fun _ => ((1 : ℚ)/4, (1 : ℚ)/4)) b) = 1 / 2 ^ [(1 : ℚ), 2, 3].length := by
  intro b
  norm_num [normSq]

theorem zero_parameter_energy_witness :
    (∀ b : Fin ([(1 : ℚ), 2, 3].length) → Bool,
        normSq ((fun _ => ((1 : ℚ)/4, (1 : ℚ)/4)) b)
          = 1 / 2 ^ [(1 : ℚ), 2, 3].length) ∧
    ((∀ i j : Fin ([(1 : ℚ), 2, 3].length), i ≠ j →
        zzExpectation (fun _ => ((1 : ℚ)/4, (1 : ℚ)/4)) i j = 0) ∧
      expectation_value [(1 : ℚ), 2, 3] (fun _ => (1/4, 1/4))
        = constant_term [(1 : ℚ), 2, 3] ∧
      expectation_value [(1 : ℚ), 2, 3] (fun _ => (1/4, 1/4))
        = bruteForceUniformEnergy [(1 : ℚ), 2, 3]) :=
  ⟨uniform_three_probs, zero_parameter_energy [(1 : ℚ), 2, 3] (fun _ => (1/4, 1/4))
    uniform_three_probs⟩

end NumberPartition

